import Mathlib

/-!
Verification of the learning-platform content-maintenance scripts.

The development shallowly embeds the Python sources:
  * `normalize_filename`       — scripts/generate-spanish-audio.py, lines 20–53
  * `is_spanish_text`          — scripts/generate-spanish-audio.py, lines 119–142
  * flashcard extraction       — scripts/generate-spanish-audio.py, lines 87–96
  * the generation main loop   — scripts/generate-spanish-audio.py, lines 188–210
  * `text_to_audio_filename`   — scripts/add-audio-to-flashcards.py, lines 13–36
  * `add_audio_to_flashcard`   — scripts/add-audio-to-flashcards.py, lines 39–59
  * the verb task update loop  — scripts/generation/generate-audio.py, lines 91–104

Strings are modelled as Lean `String` (a structure over `List Char`), and the
string-level pipelines operate on the underlying `List Char`.  Python's
`str.lower()` is modelled exactly on ASCII letters and on the uppercase Spanish
accented letters that the scripts' mapping tables mention; other characters are
left unchanged.  Python's regex `\s` is modelled as the ASCII whitespace
characters.  Both approximations are exact on every input appearing in the
claims, and the universal slug-validity theorem is insensitive to them because
`normalize_filename` ends with a hard character filter.
-/

namespace LearningPlatform

/-- Python `str.lower()`, restricted to the alphabet the scripts care about:
ASCII `A`–`Z` plus the uppercase accented letters of the scripts' mapping
tables; every other character is returned unchanged. -/
def pyLower (c : Char) : Char :=
  if c = 'Á' then 'á' else if c = 'É' then 'é' else if c = 'Í' then 'í'
  else if c = 'Ó' then 'ó' else if c = 'Ú' then 'ú' else if c = 'Ü' then 'ü'
  else if c = 'Ñ' then 'ñ' else c.toLower

/-- ASCII whitespace, the model of Python's regex class `\s`. -/
def isWs (c : Char) : Bool :=
  c = ' ' || c = '\t' || c = '\n' || c = '\x0d' || c = '\x0b' || c = '\x0c'

/-- The class `[\s/]` of `generate-spanish-audio.py`'s step
`re.sub(r'[\s/]+', '-', text)`. -/
def isWsSlash (c : Char) : Bool :=
  isWs c || c = '/'

/-- `re.sub(p+, '-', text)` for a character class `p`: every maximal run of
characters satisfying `p` becomes a single hyphen. -/
def replaceRuns (p : Char → Bool) : List Char → List Char
  | [] => []
  | [c] => if p c then ['-'] else [c]
  | a :: b :: rest =>
      if p a && p b then replaceRuns p (b :: rest)
      else (if p a then '-' else a) :: replaceRuns p (b :: rest)

/-- `re.sub(r'-+', '-', text)`: collapse each run of hyphens to one hyphen. -/
def squeezeHyphens : List Char → List Char
  | [] => []
  | [c] => [c]
  | a :: b :: rest =>
      if a = '-' && b = '-' then squeezeHyphens (b :: rest)
      else a :: squeezeHyphens (b :: rest)

/-- Python `text.strip('-')` applied from the right: remove the trailing run of
hyphens.  (Implemented front-to-back; the result is a prefix of the input.) -/
def stripTrailingHyphens : List Char → List Char
  | [] => []
  | c :: cs =>
      let rest := stripTrailingHyphens cs
      if c = '-' && rest.isEmpty then [] else c :: rest

/-- Python `text.strip('-')`: remove leading and trailing runs of hyphens. -/
def stripHyphens (l : List Char) : List Char :=
  stripTrailingHyphens (l.dropWhile (fun c => c = '-'))

/-- The punctuation class `[¿?¡!.,;:()]` stripped by `normalize_filename`. -/
def punctuation1 : List Char := ['¿', '?', '¡', '!', '.', ',', ';', ':', '(', ')']

/-- The accent replacement table of `normalize_filename`
(`á→a, é→e, í→i, ó→o, ú→u, ü→u, ñ→n`). -/
def accentTable1 : List (Char × Char) :=
  [('á', 'a'), ('é', 'e'), ('í', 'i'), ('ó', 'o'), ('ú', 'u'), ('ü', 'u'), ('ñ', 'n')]

/-- Apply an accent-replacement table character by character (each table entry
is a single character, so Python's sequence of `str.replace` calls is a map). -/
def applyTable (table : List (Char × Char)) (c : Char) : Char :=
  match table.find? (fun p => p.1 = c) with
  | some p => p.2
  | none => c

/-- `a`–`z` or `0`–`9`. -/
def isLowerAlnum (c : Char) : Bool :=
  ('a' ≤ c && c ≤ 'z') || ('0' ≤ c && c ≤ '9')

/-- The class `[a-z0-9-]` kept by `normalize_filename`'s filtering step
`re.sub(r'[^a-z0-9-]', '', text)`. -/
def isSlugChar (c : Char) : Bool :=
  isLowerAlnum c || c = '-'

/-- `normalize_filename` from `scripts/generate-spanish-audio.py` (lines 20–53):
lowercase; strip `[¿?¡!.,;:()]`; replace accented letters; turn runs of
whitespace and slashes into hyphens; drop everything outside `[a-z0-9-]`;
collapse hyphen runs; trim leading/trailing hyphens. -/
def normalize_filename (s : String) : String :=
  let l := s.data.map pyLower
  let l := l.filter (fun c => !(c ∈ punctuation1))
  let l := l.map (applyTable accentTable1)
  let l := replaceRuns isWsSlash l
  let l := l.filter isSlugChar
  let l := squeezeHyphens l
  ⟨stripHyphens l⟩

/-- The punctuation class `[¿¡…?!,.()\[\]{}]` stripped by
`text_to_audio_filename`. -/
def punctuation2 : List Char :=
  ['¿', '¡', '…', '?', '!', ',', '.', '(', ')', '[', ']', '\x7b', '\x7d']

/-- The accent replacement table of `text_to_audio_filename` (both cases of
`á é í ó ú ñ`; note: no `ü`). -/
def accentTable2 : List (Char × Char) :=
  [('á', 'a'), ('é', 'e'), ('í', 'i'), ('ó', 'o'), ('ú', 'u'), ('ñ', 'n'),
   ('Á', 'A'), ('É', 'E'), ('Í', 'I'), ('Ó', 'O'), ('Ú', 'U'), ('Ñ', 'N')]

/-- Python `text.strip()` applied from the right: remove trailing whitespace. -/
def stripTrailingWs : List Char → List Char
  | [] => []
  | c :: cs =>
      let rest := stripTrailingWs cs
      if isWs c && rest.isEmpty then [] else c :: rest

/-- Python `text.strip()`: remove leading and trailing whitespace. -/
def stripWs (l : List Char) : List Char :=
  stripTrailingWs (l.dropWhile isWs)

/-- `text_to_audio_filename` from `scripts/add-audio-to-flashcards.py`
(lines 13–36): strip `[¿¡…?!,.()\[\]{}]`; replace accented letters (both
cases); lowercase and strip surrounding whitespace; turn whitespace runs into
hyphens.  Unlike `normalize_filename` there is no final character filter, no
hyphen-run collapsing and no hyphen trimming. -/
def text_to_audio_filename (s : String) : String :=
  let l := s.data.filter (fun c => !(c ∈ punctuation2))
  let l := l.map (applyTable accentTable2)
  let l := (l.map pyLower)
  let l := stripWs l
  ⟨replaceRuns isWs l⟩

/-- `true` when no two adjacent characters are both hyphens. -/
def noConsecHyphens : List Char → Bool
  | a :: b :: rest => !(a = '-' && b = '-') && noConsecHyphens (b :: rest)
  | _ => true

/-- List-level decision of the regular expression `^[a-z0-9]+(-[a-z0-9]+)*$`:
nonempty, only characters from `[a-z0-9-]`, and no leading, trailing or
consecutive hyphens (equivalently, hyphen-separated nonempty alphanumeric
runs). -/
def slugCharsOk (l : List Char) : Bool :=
  !l.isEmpty
    && l.all isSlugChar
    && l.head? ≠ some '-'
    && l.getLast? ≠ some '-'
    && noConsecHyphens l

/-- Decides the regular expression `^[a-z0-9]+(-[a-z0-9]+)*$` on a string. -/
def matchesSlugRegex (s : String) : Bool :=
  slugCharsOk s.data

/-! ### Classifier, extraction and workflow of `generate-spanish-audio.py` -/

/-- Substring containment, Python's `needle in hay` on strings. -/
def containsSub (needle : List Char) : List Char → Bool
  | [] => needle.isEmpty
  | c :: t => needle.isPrefixOf (c :: t) || containsSub needle t

/-- The `spanish_chars` list of `is_spanish_text`. -/
def spanishChars : List Char := ['¿', '¡', 'ñ', 'á', 'é', 'í', 'ó', 'ú', 'ü']

/-- The `common_spanish` word list of `is_spanish_text`. -/
def commonSpanish : List String :=
  ["hola", "adiós", "gracias", "por favor", "buenos días", "buenas tardes",
   "buenas noches", "cómo", "qué", "dónde", "cuándo", "me llamo", "soy",
   "el", "la", "los", "las", "un", "una", "perro", "gato", "padre", "madre"]

/-- `is_spanish_text` from `scripts/generate-spanish-audio.py` (lines 119–142):
false on the empty string; otherwise true when the lowercased text contains a
Spanish-specific character or one of the common Spanish words as a substring. -/
def is_spanish_text (text : String) : Bool :=
  if text.data.isEmpty then false
  else
    let lower := text.data.map pyLower
    spanishChars.any (fun c => lower.contains c)
      || commonSpanish.any (fun w => containsSub w.data lower)

/-- The flashcard branch of `extract_spanish_text_from_json`
(`scripts/generate-spanish-audio.py`, lines 87–96): the front (resp. back)
text is collected when its language tag equals `es` AND `is_spanish_text`
accepts it. -/
def extractFlashcard (front back frontLang backLang : String) : List String :=
  (if frontLang = "es" && is_spanish_text front then [front] else [])
    ++ (if backLang = "es" && is_spanish_text back then [back] else [])

/-- State of the generation loop of `main` (`generate-spanish-audio.py`,
lines 188–210): the set of `.mp3` filenames present in the audio output
directory, the in-memory manifest, the number of synthesis (gTTS) calls
issued, and the texts whose synthesis failed (each is logged with a
`✗ Failed ...` line carrying the offending text). -/
structure WorkflowState where
  files : List String
  manifest : List (String × String)
  synthCalls : Nat
  failures : List String
deriving DecidableEq

/-- `normalize_filename(text) + ".mp3"`, the filename computed by the loop. -/
def audioFilename (text : String) : String :=
  normalize_filename text ++ ".mp3"

/-- One iteration of the loop body (lines 191–206): if the file already
exists, record the manifest entry without synthesizing; otherwise call the
synthesis collaborator (`generate_audio_file`, lines 144–158, which catches
every exception and reports success as a boolean); on success the file is
written and the manifest entry recorded, on failure the text is logged and
skipped. -/
def processText (synth : String → Bool) (st : WorkflowState) (text : String) : WorkflowState :=
  let filename := audioFilename text
  if filename ∈ st.files then
    { st with manifest := st.manifest ++ [(text, filename)] }
  else if synth text then
    { st with files := st.files ++ [filename],
              manifest := st.manifest ++ [(text, filename)],
              synthCalls := st.synthCalls + 1 }
  else
    { st with synthCalls := st.synthCalls + 1,
              failures := st.failures ++ [text] }

/-- The loop of `main` run from an arbitrary state. -/
def runFrom (synth : String → Bool) (st : WorkflowState) (texts : List String) : WorkflowState :=
  texts.foldl (processText synth) st

/-- A full run of the generation loop: the manifest, call counter and failure
log start empty, the file set is whatever the asset directory holds. -/
def runWorkflow (synth : String → Bool) (files0 : List String) (texts : List String) :
    WorkflowState :=
  runFrom synth { files := files0, manifest := [], synthCalls := 0, failures := [] } texts

/-- The manifest written at the end of `main` (lines 209–210):
`json.dump(manifest, f, sort_keys=True)` into `MANIFEST_FILE` opened in mode
`'w'`, so the file's previous contents — the `preexisting` argument — are
discarded without ever being read, and only the current run's entries, sorted
by key, are written. -/
def writtenManifest (preexisting : List (String × String)) (st : WorkflowState) :
    List (String × String) :=
  st.manifest.mergeSort (fun a b => a.1 ≤ b.1)

/-! ### Record structures and field updaters -/

/-- The `content` dictionary of a flashcard task as touched by
`add_audio_to_flashcard`.  The fields the script reads or writes are explicit;
`contentRest` stands for all remaining key/value pairs of the dictionary,
which the script never touches. -/
structure FlashcardContent where
  front : String
  back : String
  frontLanguage : String
  backLanguage : String
  frontAudio : Option String
  backAudio : Option String
  contentRest : List (String × String)
deriving DecidableEq

/-- A task record as touched by `add-audio-to-flashcards.py`; `taskRest`
stands for all task fields other than `type` and `content` (id, title, …). -/
structure Task where
  type : String
  content : FlashcardContent
  taskRest : List (String × String)
deriving DecidableEq

/-- `add_audio_to_flashcard` from `scripts/add-audio-to-flashcards.py`
(lines 39–59): non-flashcard tasks are returned unchanged; for flashcards,
`frontAudio` (resp. `backAudio`) is set to `spanish/{slug}.mp3` when the
matching language tag is `es` and the text is truthy (non-empty). -/
def add_audio_to_flashcard (task : Task) : Task :=
  if task.type ≠ "flashcard" then task
  else
    let c0 := task.content
    let c1 :=
      if c0.frontLanguage = "es" ∧ c0.front ≠ "" then
        { c0 with frontAudio := some ("spanish/" ++ text_to_audio_filename c0.front ++ ".mp3") }
      else c0
    let c2 :=
      if c1.backLanguage = "es" ∧ c1.back ≠ "" then
        { c1 with backAudio := some ("spanish/" ++ text_to_audio_filename c1.back ++ ".mp3") }
      else c1
    { task with content := c2 }

/-- The `content` dictionary of a verb task as touched by the module-level
update loop of `scripts/generation/generate-audio.py` (lines 91–104). -/
structure VerbContent where
  correctAnswerLanguage : Option String
  correctAnswerAudio : Option String
  verbContentRest : List (String × String)
deriving DecidableEq

/-- A task record as touched by `generate-audio.py`'s update loop. -/
structure VerbTask where
  verbContent : VerbContent
  hasAudio : Option Bool
  audioUrl : Option String
  language : Option String
  verbTaskRest : List (String × String)
deriving DecidableEq

/-- The body of the update loop of `generate-audio.py` (lines 99–104) for a
task whose computed correct answer is `correctAnswer`: it assigns
`correctAnswerLanguage`, `correctAnswerAudio`, `hasAudio`, `audioUrl` and
`language` to fixed values computed from `correctAnswer` alone. -/
def updateVerbTask (correctAnswer : String) (t : VerbTask) : VerbTask :=
  { t with
    verbContent := { t.verbContent with
      correctAnswerLanguage := some "en",
      correctAnswerAudio := some ("english/verbs/" ++ correctAnswer ++ ".mp3") },
    hasAudio := some true,
    audioUrl := some ("english/verbs/" ++ correctAnswer ++ ".mp3"),
    language := some "English" }

/-! ### Structural lemmas about the hyphen-cleanup steps -/

theorem squeeze_head (l : List Char) : (squeezeHyphens l).head? = l.head? := by
  induction l with
  | nil => rfl
  | cons a tail ih =>
    cases tail with
    | nil => rfl
    | cons b rest =>
      simp only [squeezeHyphens]
      by_cases h : (a = '-' && b = '-') = true
      · rw [if_pos h]
        rw [ih]
        simp only [Bool.and_eq_true, decide_eq_true_eq] at h
        simp [h.1, h.2]
      · rw [if_neg h]
        rfl

theorem squeeze_mem {c : Char} : ∀ {l : List Char}, c ∈ squeezeHyphens l → c ∈ l := by
  intro l
  induction l with
  | nil => simp [squeezeHyphens]
  | cons a tail ih =>
    cases tail with
    | nil => simp [squeezeHyphens]
    | cons b rest =>
      simp only [squeezeHyphens]
      by_cases h : (a = '-' && b = '-') = true
      · rw [if_pos h]
        intro hm
        exact List.mem_cons_of_mem a (ih hm)
      · rw [if_neg h]
        intro hm
        rcases List.mem_cons.mp hm with h1 | h2
        · exact h1 ▸ List.mem_cons_self a _
        · exact List.mem_cons_of_mem a (ih h2)

theorem squeeze_noConsec (l : List Char) : noConsecHyphens (squeezeHyphens l) = true := by
  induction l with
  | nil => rfl
  | cons a tail ih =>
    cases tail with
    | nil => rfl
    | cons b rest =>
      simp only [squeezeHyphens]
      by_cases h : (a = '-' && b = '-') = true
      · rw [if_pos h]
        exact ih
      · rw [if_neg h]
        have hh := squeeze_head (b :: rest)
        cases he : squeezeHyphens (b :: rest) with
        | nil => simp [noConsecHyphens]
        | cons x t =>
          rw [he] at hh
          have hx : x = b := by simpa using hh
          rw [he] at ih
          subst hx
          simp only [noConsecHyphens, Bool.and_eq_true]
          refine ⟨?_, ih⟩
          have hv : (decide (a = '-') && decide (x = '-')) = false := by
            cases hv : (decide (a = '-') && decide (x = '-')) with
            | false => rfl
            | true => exact absurd hv h
          simp [hv]

theorem noConsec_tail {a : Char} {l : List Char}
    (h : noConsecHyphens (a :: l) = true) : noConsecHyphens l = true := by
  cases l with
  | nil => rfl
  | cons b r =>
    simp only [noConsecHyphens, Bool.and_eq_true] at h
    exact h.2

theorem noConsec_append_right {l₂ : List Char} :
    ∀ {l₁ : List Char}, noConsecHyphens (l₁ ++ l₂) = true → noConsecHyphens l₂ = true := by
  intro l₁
  induction l₁ with
  | nil => exact fun h => h
  | cons a t ih =>
    intro h
    exact ih (noConsec_tail h)

theorem noConsec_append_left {l₂ : List Char} :
    ∀ {l₁ : List Char}, noConsecHyphens (l₁ ++ l₂) = true → noConsecHyphens l₁ = true := by
  intro l₁
  induction l₁ with
  | nil => intro _; rfl
  | cons a t ih =>
    cases t with
    | nil => intro _; rfl
    | cons b r =>
      intro h
      simp only [List.cons_append, noConsecHyphens, Bool.and_eq_true] at h ⊢
      exact ⟨h.1, ih h.2⟩

theorem stripTrailing_append (l : List Char) :
    ∃ t, stripTrailingHyphens l ++ t = l := by
  induction l with
  | nil => exact ⟨[], rfl⟩
  | cons c cs ih =>
    simp only [stripTrailingHyphens]
    by_cases h : (c = '-' && (stripTrailingHyphens cs).isEmpty) = true
    · rw [if_pos h]
      exact ⟨c :: cs, rfl⟩
    · rw [if_neg h]
      obtain ⟨t, ht⟩ := ih
      exact ⟨t, by rw [List.cons_append, ht]⟩

theorem stripTrailing_getLast (l : List Char) :
    (stripTrailingHyphens l).getLast? ≠ some '-' := by
  induction l with
  | nil => simp [stripTrailingHyphens]
  | cons c cs ih =>
    simp only [stripTrailingHyphens]
    by_cases h : (c = '-' && (stripTrailingHyphens cs).isEmpty) = true
    · rw [if_pos h]
      simp
    · rw [if_neg h]
      cases he : stripTrailingHyphens cs with
      | nil =>
        have hc : ¬ c = '-' := by
          intro hcc
          rw [he] at h
          simp [hcc] at h
        simp [List.getLast?, hc]
      | cons r rs =>
        rw [List.getLast?_cons_cons]
        rw [he] at ih
        exact ih

theorem head_dropWhile_ne {p : Char → Bool} {c : Char} :
    ∀ {l : List Char}, (l.dropWhile p).head? = some c → p c = false := by
  intro l
  induction l with
  | nil => intro h; simp [List.dropWhile] at h
  | cons a t ih =>
    intro h
    by_cases hp : p a = true
    · rw [List.dropWhile_cons_of_pos hp] at h
      exact ih h
    · rw [List.dropWhile_cons_of_neg hp] at h
      simp only [List.head?_cons, Option.some.injEq] at h
      rw [← h]
      exact Bool.eq_false_iff.mpr hp

/-- The three facts about `stripHyphens` needed for slug validity: the result
sits inside the input, keeps the no-consecutive-hyphens invariant, and has no
hyphen at either end. -/
theorem stripHyphens_spec (l : List Char) :
    (∀ c ∈ stripHyphens l, c ∈ l)
      ∧ (noConsecHyphens l = true → noConsecHyphens (stripHyphens l) = true)
      ∧ (stripHyphens l).head? ≠ some '-'
      ∧ (stripHyphens l).getLast? ≠ some '-' := by
  unfold stripHyphens
  set d := l.dropWhile (fun c => c = '-') with hd
  obtain ⟨t, ht⟩ := stripTrailing_append d
  have hdl : l.takeWhile (fun c => c = '-') ++ d = l := by
    rw [hd]
    exact List.takeWhile_append_dropWhile _ _
  refine ⟨?_, ?_, ?_, stripTrailing_getLast d⟩
  · intro c hc
    have hcd : c ∈ d := by
      rw [← ht]
      exact List.mem_append_left t hc
    rw [← hdl]
    exact List.mem_append_right _ hcd
  · intro hnc
    have hncd : noConsecHyphens d = true := by
      rw [← hdl] at hnc
      exact noConsec_append_right hnc
    rw [← ht] at hncd
    exact noConsec_append_left hncd
  · intro hhead
    cases hs : stripTrailingHyphens d with
    | nil => rw [hs] at hhead; simp at hhead
    | cons x xs =>
      rw [hs] at hhead
      simp only [List.head?_cons, Option.some.injEq] at hhead
      have hxd : d.head? = some x := by
        rw [← ht, hs]
        rfl
      have := head_dropWhile_ne (p := fun c => c = '-') (hd ▸ hxd)
      rw [hhead] at this
      simp at this

/-- The last three steps of `normalize_filename` (filter, collapse, trim)
turn any character list into a valid slug or the empty list. -/
theorem final_valid (m : List Char) :
    stripHyphens (squeezeHyphens (m.filter isSlugChar)) = [] ∨
      slugCharsOk (stripHyphens (squeezeHyphens (m.filter isSlugChar))) = true := by
  have hall3 : ∀ c ∈ m.filter isSlugChar, isSlugChar c = true := by
    intro c hc
    exact List.of_mem_filter hc
  have hall4 : ∀ c ∈ squeezeHyphens (m.filter isSlugChar), isSlugChar c = true :=
    fun c hc => hall3 c (squeeze_mem hc)
  have hnc4 : noConsecHyphens (squeezeHyphens (m.filter isSlugChar)) = true :=
    squeeze_noConsec (m.filter isSlugChar)
  obtain ⟨hmem, hncp, hhead, hlast⟩ := stripHyphens_spec (squeezeHyphens (m.filter isSlugChar))
  have hAll : (stripHyphens (squeezeHyphens (m.filter isSlugChar))).all isSlugChar = true := by
    rw [List.all_eq_true]
    intro c hc
    exact hall4 c (hmem c hc)
  have hNc : noConsecHyphens (stripHyphens (squeezeHyphens (m.filter isSlugChar))) = true :=
    hncp hnc4
  cases he : stripHyphens (squeezeHyphens (m.filter isSlugChar)) with
  | nil => exact Or.inl rfl
  | cons x xs =>
    right
    rw [he] at hAll hNc hhead hlast
    simp only [slugCharsOk, Bool.and_eq_true, decide_eq_true_eq, ne_eq]
    exact ⟨⟨⟨⟨rfl, hAll⟩, hhead⟩, hlast⟩, hNc⟩

/-- `normalize_filename` unfolded to its list pipeline. -/
theorem normalize_filename_eq (s : String) :
    normalize_filename s =
      ⟨stripHyphens (squeezeHyphens
        ((replaceRuns isWsSlash
          (((s.data.map pyLower).filter (fun c => !(c ∈ punctuation1))).map
            (applyTable accentTable1))).filter isSlugChar))⟩ := rfl

/-- C1 (amended): every output of `normalize_filename` matches
`^[a-z0-9]+(-[a-z0-9]+)*$` or is the empty string. -/
theorem normalize_filename_valid (s : String) :
    normalize_filename s = "" ∨ matchesSlugRegex (normalize_filename s) = true := by
  rcases final_valid
      (replaceRuns isWsSlash
        (((s.data.map pyLower).filter (fun c => !(c ∈ punctuation1))).map
          (applyTable accentTable1))) with h | h
  · left
    rw [normalize_filename_eq, h]
  · right
    rw [normalize_filename_eq]
    exact h

/-! ### Lemmas about the generation loop -/

theorem runFrom_nil (synth : String → Bool) (st : WorkflowState) :
    runFrom synth st [] = st := rfl

theorem runFrom_cons (synth : String → Bool) (st : WorkflowState) (t : String)
    (rest : List String) :
    runFrom synth st (t :: rest) = runFrom synth (processText synth st t) rest := rfl

/-- The three branches of the loop body. -/
theorem processText_cases (synth : String → Bool) (st : WorkflowState) (t : String) :
    (audioFilename t ∈ st.files ∧
        processText synth st t = { st with manifest := st.manifest ++ [(t, audioFilename t)] })
      ∨ (audioFilename t ∉ st.files ∧ synth t = true ∧
          processText synth st t =
            { st with files := st.files ++ [audioFilename t],
                      manifest := st.manifest ++ [(t, audioFilename t)],
                      synthCalls := st.synthCalls + 1 })
      ∨ (audioFilename t ∉ st.files ∧ synth t = false ∧
          processText synth st t =
            { st with synthCalls := st.synthCalls + 1,
                      failures := st.failures ++ [t] }) := by
  by_cases h1 : audioFilename t ∈ st.files
  · left
    exact ⟨h1, by simp [processText, h1]⟩
  · cases h2 : synth t with
    | false =>
      right; right
      exact ⟨h1, rfl, by simp [processText, h1, h2]⟩
    | true =>
      right; left
      exact ⟨h1, rfl, by simp [processText, h1, h2]⟩

theorem processText_files_mono (synth : String → Bool) (st : WorkflowState) (t : String) :
    st.files ⊆ (processText synth st t).files := by
  rcases processText_cases synth st t with ⟨_, h⟩ | ⟨_, _, h⟩ | ⟨_, _, h⟩ <;> rw [h]
  · exact fun x hx => hx
  · exact fun x hx => List.mem_append_left _ hx
  · exact fun x hx => hx

theorem runFrom_files_mono (synth : String → Bool) :
    ∀ (texts : List String) (st : WorkflowState), st.files ⊆ (runFrom synth st texts).files := by
  intro texts
  induction texts with
  | nil => intro st x hx; exact hx
  | cons t rest ih =>
    intro st x hx
    rw [runFrom_cons]
    exact ih (processText synth st t) (processText_files_mono synth st t hx)

theorem runFrom_failures_extend (synth : String → Bool) :
    ∀ (texts : List String) (st : WorkflowState),
      ∃ ex, (runFrom synth st texts).failures = st.failures ++ ex := by
  intro texts
  induction texts with
  | nil => intro st; exact ⟨[], (List.append_nil _).symm⟩
  | cons t rest ih =>
    intro st
    rw [runFrom_cons]
    rcases processText_cases synth st t with ⟨_, h⟩ | ⟨_, _, h⟩ | ⟨_, _, h⟩ <;> rw [h]
    · obtain ⟨ex, hex⟩ := ih _
      exact ⟨ex, hex⟩
    · obtain ⟨ex, hex⟩ := ih _
      exact ⟨ex, hex⟩
    · obtain ⟨ex, hex⟩ := ih _
      refine ⟨[t] ++ ex, ?_⟩
      rw [hex]
      simp

/-- A run that records no failure visits the exists/success branch for every
candidate: the manifest gains an entry per candidate, in order, and every
candidate's file is present afterwards. -/
theorem runFrom_noFailures (synth : String → Bool) :
    ∀ (texts : List String) (st : WorkflowState),
      (runFrom synth st texts).failures = st.failures →
      (runFrom synth st texts).manifest
          = st.manifest ++ texts.map (fun t => (t, audioFilename t))
        ∧ ∀ t ∈ texts, audioFilename t ∈ (runFrom synth st texts).files := by
  intro texts
  induction texts with
  | nil =>
    intro st _
    exact ⟨(List.append_nil _).symm, by simp⟩
  | cons t rest ih =>
    intro st h
    rw [runFrom_cons] at h ⊢
    rcases processText_cases synth st t with ⟨hmem, hpt⟩ | ⟨hnm, hsy, hpt⟩ | ⟨hnm, hsy, hpt⟩ <;>
      rw [hpt] at h ⊢
    · obtain ⟨ihm, ihf⟩ := ih _ h
      constructor
      · rw [ihm]
        simp
      · intro x hx
        rcases List.mem_cons.mp hx with rfl | hxr
        · exact runFrom_files_mono synth rest _ hmem
        · exact ihf x hxr
    · obtain ⟨ihm, ihf⟩ := ih _ h
      constructor
      · rw [ihm]
        simp
      · intro x hx
        rcases List.mem_cons.mp hx with rfl | hxr
        · exact runFrom_files_mono synth rest _ (by simp)
        · exact ihf x hxr
    · exfalso
      obtain ⟨ex, hex⟩ := runFrom_failures_extend synth rest _
      rw [h] at hex
      have hlen := congrArg List.length hex
      simp [List.length_append] at hlen

/-- A run in which every candidate's file already exists only records manifest
entries: no synthesis call, no failure, no new file. -/
theorem runFrom_all_present (synth : String → Bool) :
    ∀ (texts : List String) (st : WorkflowState),
      (∀ t ∈ texts, audioFilename t ∈ st.files) →
      runFrom synth st texts
        = { st with manifest := st.manifest ++ texts.map (fun t => (t, audioFilename t)) } := by
  intro texts
  induction texts with
  | nil =>
    intro st _
    rw [runFrom_nil]
    cases st
    simp
  | cons t rest ih =>
    intro st h
    rw [runFrom_cons]
    have hm : audioFilename t ∈ st.files := h t (List.mem_cons_self t rest)
    have hpt : processText synth st t
        = { st with manifest := st.manifest ++ [(t, audioFilename t)] } := by
      rcases processText_cases synth st t with ⟨_, h1⟩ | ⟨hn, _, _⟩ | ⟨hn, _, _⟩
      · exact h1
      · exact absurd hm hn
      · exact absurd hm hn
    have hrun := ih { st with manifest := st.manifest ++ [(t, audioFilename t)] }
      (fun x hx => h x (List.mem_cons_of_mem t hx))
    rw [hpt, hrun]
    simp

/-- A run in which no candidate's file pre-exists and no two candidates share
a filename: every candidate is synthesized exactly once; successes contribute
a file and a manifest entry, failures are logged, in input order. -/
theorem runFrom_fresh (synth : String → Bool) :
    ∀ (texts : List String) (st : WorkflowState),
      (∀ t ∈ texts, audioFilename t ∉ st.files) →
      (texts.map audioFilename).Nodup →
      runFrom synth st texts
        = { st with
            files := st.files ++ (texts.filter (fun t => synth t)).map audioFilename,
            manifest := st.manifest
              ++ (texts.filter (fun t => synth t)).map (fun t => (t, audioFilename t)),
            synthCalls := st.synthCalls + texts.length,
            failures := st.failures ++ texts.filter (fun t => !synth t) } := by
  intro texts
  induction texts with
  | nil =>
    intro st _ _
    rw [runFrom_nil]
    cases st
    simp
  | cons t rest ih =>
    intro st h hnd
    rw [runFrom_cons]
    have hnm : audioFilename t ∉ st.files := h t (List.mem_cons_self t rest)
    rw [List.map_cons, List.nodup_cons] at hnd
    cases hsy : synth t with
    | true =>
      have hpt : processText synth st t
          = { st with files := st.files ++ [audioFilename t],
                      manifest := st.manifest ++ [(t, audioFilename t)],
                      synthCalls := st.synthCalls + 1 } := by
        rcases processText_cases synth st t with ⟨hmm, _⟩ | ⟨_, _, h1⟩ | ⟨_, hs, _⟩
        · exact absurd hmm hnm
        · exact h1
        · rw [hsy] at hs; cases hs
      have hfresh : ∀ x ∈ rest, audioFilename x ∉
          ({ st with files := st.files ++ [audioFilename t],
                     manifest := st.manifest ++ [(t, audioFilename t)],
                     synthCalls := st.synthCalls + 1 } : WorkflowState).files := by
        intro x hx
        simp only [List.mem_append, List.mem_singleton]
        push_neg
        refine ⟨h x (List.mem_cons_of_mem t hx), ?_⟩
        intro heq
        exact hnd.1 (heq ▸ List.mem_map_of_mem audioFilename hx)
      have hrun := ih _ hfresh hnd.2
      rw [hpt, hrun]
      simp only [List.filter_cons, hsy, List.map_cons]
      simp [List.append_assoc]
      omega
    | false =>
      have hpt : processText synth st t
          = { st with synthCalls := st.synthCalls + 1,
                      failures := st.failures ++ [t] } := by
        rcases processText_cases synth st t with ⟨hmm, _⟩ | ⟨_, hs, _⟩ | ⟨_, _, h1⟩
        · exact absurd hmm hnm
        · rw [hsy] at hs; cases hs
        · exact h1
      have hrun := ih { st with synthCalls := st.synthCalls + 1,
                                failures := st.failures ++ [t] }
        (fun x hx => h x (List.mem_cons_of_mem t hx)) hnd.2
      rw [hpt, hrun]
      simp only [List.filter_cons, hsy]
      simp [List.append_assoc]
      omega

/-! ### Comparing the two normalizers on plain text -/

/-- Characters on which the two normalization pipelines can be compared step
by step: the space, the ten digits, and the twenty-six lowercase ASCII
letters. -/
def plainChars : List Char :=
  ' ' :: (List.range 10).map (fun n => Char.ofNat (48 + n))
    ++ (List.range 26).map (fun n => Char.ofNat (97 + n))

theorem map_id_on {f : Char → Char} : ∀ {l : List Char}, (∀ c ∈ l, f c = c) → l.map f = l := by
  intro l
  induction l with
  | nil => intro _; rfl
  | cons a t ih =>
    intro h
    rw [List.map_cons, h a (List.mem_cons_self a t),
      ih (fun c hc => h c (List.mem_cons_of_mem a hc))]

theorem bool_and_elim {a b : Bool} (h : (a && b) = true) : a = true ∧ b = true := by
  rw [Bool.and_eq_true] at h
  exact h

theorem replaceRuns_two_pos {p : Char → Bool} {a b : Char} (rest : List Char)
    (h : (p a && p b) = true) :
    replaceRuns p (a :: b :: rest) = replaceRuns p (b :: rest) := by
  simp only [replaceRuns, if_pos h]

theorem replaceRuns_two_neg {p : Char → Bool} {a b : Char} (rest : List Char)
    (h : ¬(p a && p b) = true) :
    replaceRuns p (a :: b :: rest)
      = (if p a then '-' else a) :: replaceRuns p (b :: rest) := by
  simp only [replaceRuns, if_neg h]

theorem dropHyphen_cons_neg {y : Char} {ys : List Char} (h : y ≠ '-') :
    List.dropWhile (fun c => c = '-') (y :: ys) = y :: ys := by
  have hd : (decide (y = '-')) = false := by simp [h]
  rw [List.dropWhile_cons]
  simp only [hd]
  rw [if_neg]
  intro hc
  cases hc

theorem dropHyphen_cons_pos (ys : List Char) :
    List.dropWhile (fun c => c = '-') ('-' :: ys)
      = List.dropWhile (fun c => c = '-') ys := by
  rw [List.dropWhile_cons]
  simp

theorem dropWs_cons_pos {a : Char} {l : List Char} (h : isWs a = true) :
    List.dropWhile isWs (a :: l) = List.dropWhile isWs l := by
  rw [List.dropWhile_cons, h]
  rw [if_pos rfl]

theorem dropWs_cons_neg {a : Char} {l : List Char} (h : isWs a = false) :
    List.dropWhile isWs (a :: l) = a :: l := by
  rw [List.dropWhile_cons, h]
  rw [if_neg]
  intro hc
  cases hc

theorem replaceRuns_congr {p q : Char → Bool} :
    ∀ {l : List Char}, (∀ c ∈ l, p c = q c) → replaceRuns p l = replaceRuns q l := by
  intro l
  induction l with
  | nil => intro _; rfl
  | cons a t ih =>
    intro h
    cases t with
    | nil =>
      simp only [replaceRuns, h a (List.mem_cons_self a [])]
    | cons b rest =>
      have ha := h a (List.mem_cons_self a (b :: rest))
      have hb := h b (List.mem_cons_of_mem a (List.mem_cons_self b rest))
      have ht : ∀ c ∈ b :: rest, p c = q c :=
        fun c hc => h c (List.mem_cons_of_mem a hc)
      simp only [replaceRuns, ha, hb, ih ht]

theorem replaceRuns_mem {p : Char → Bool} {c : Char} :
    ∀ {l : List Char}, c ∈ replaceRuns p l → c = '-' ∨ (c ∈ l ∧ p c = false) := by
  intro l
  induction l with
  | nil => intro h; cases h
  | cons a t ih =>
    cases t with
    | nil =>
      simp only [replaceRuns]
      by_cases hp : p a = true
      · rw [if_pos hp]
        intro h
        exact Or.inl (List.mem_singleton.mp h)
      · rw [if_neg hp]
        intro h
        right
        rw [List.mem_singleton.mp h]
        exact ⟨List.mem_cons_self a [], Bool.eq_false_iff.mpr hp⟩
    | cons b rest =>
      simp only [replaceRuns]
      by_cases hab : (p a && p b) = true
      · rw [if_pos hab]
        intro h
        rcases ih h with h1 | ⟨h2, h3⟩
        · exact Or.inl h1
        · exact Or.inr ⟨List.mem_cons_of_mem a h2, h3⟩
      · rw [if_neg hab]
        intro h
        rcases List.mem_cons.mp h with h1 | h2
        · by_cases hp : p a = true
          · rw [if_pos hp] at h1
            exact Or.inl h1
          · rw [if_neg hp] at h1
            right
            rw [h1]
            exact ⟨List.mem_cons_self a _, Bool.eq_false_iff.mpr hp⟩
        · rcases ih h2 with h1 | ⟨h3, h4⟩
          · exact Or.inl h1
          · exact Or.inr ⟨List.mem_cons_of_mem a h3, h4⟩

theorem replaceRuns_head {p : Char → Bool} :
    ∀ (xs : List Char) (x : Char),
      (replaceRuns p (x :: xs)).head? = some (if p x then '-' else x) := by
  intro xs
  induction xs with
  | nil =>
    intro x
    simp only [replaceRuns]
    by_cases hp : p x = true
    · rw [if_pos hp, if_pos hp]
      rfl
    · rw [if_neg hp, if_neg hp]
      rfl
  | cons b rest ih =>
    intro x
    simp only [replaceRuns]
    by_cases hab : (p x && p b) = true
    · rw [if_pos hab]
      rw [ih b]
      obtain ⟨h1, h2⟩ := bool_and_elim hab
      rw [if_pos h1, if_pos h2]
    · rw [if_neg hab]
      rfl

theorem replaceRuns_ne_nil {p : Char → Bool} (x : Char) (xs : List Char) :
    replaceRuns p (x :: xs) ≠ [] := by
  intro h
  have := replaceRuns_head (p := p) xs x
  rw [h] at this
  cases this

theorem replaceRuns_noConsec {p : Char → Bool} :
    ∀ {l : List Char}, (∀ c ∈ l, c ≠ '-') → noConsecHyphens (replaceRuns p l) = true := by
  intro l
  induction l with
  | nil => intro _; rfl
  | cons a t ih =>
    intro h
    cases t with
    | nil =>
      simp only [replaceRuns]
      by_cases hp : p a = true
      · rw [if_pos hp]; rfl
      · rw [if_neg hp]; rfl
    | cons b rest =>
      have hht : ∀ c ∈ b :: rest, c ≠ '-' := fun c hc => h c (List.mem_cons_of_mem a hc)
      simp only [replaceRuns]
      by_cases hab : (p a && p b) = true
      · rw [if_pos hab]
        exact ih hht
      · rw [if_neg hab]
        have hR := replaceRuns_head (p := p) rest b
        cases hRe : replaceRuns p (b :: rest) with
        | nil => exact absurd hRe (replaceRuns_ne_nil b rest)
        | cons y ys =>
          rw [hRe] at hR
          simp only [List.head?_cons, Option.some.injEq] at hR
          have hihr := ih hht
          rw [hRe] at hihr
          simp only [noConsecHyphens, Bool.and_eq_true]
          refine ⟨?_, hihr⟩
          have hpair : ¬((if p a then '-' else a) = '-' ∧ y = '-') := by
            rintro ⟨h1, h2⟩
            by_cases hpa : p a = true
            · -- then p b must fail, so y = b ≠ '-'
              have hpb : p b = false := by
                cases hpb : p b with
                | false => rfl
                | true => exact absurd (by rw [hpa, hpb]; rfl) hab
              rw [hR, if_neg (by rw [hpb]; intro hc; cases hc)] at h2
              exact hht b (List.mem_cons_self b rest) h2
            · rw [if_neg hpa] at h1
              exact h a (List.mem_cons_self a _) h1
          cases hv : ((if p a then '-' else a) = '-' && y = '-') with
          | false => simp
          | true =>
            obtain ⟨hv1, hv2⟩ := bool_and_elim hv
            exact absurd ⟨of_decide_eq_true hv1, of_decide_eq_true hv2⟩ hpair

theorem squeeze_noop : ∀ {l : List Char}, noConsecHyphens l = true → squeezeHyphens l = l := by
  intro l
  induction l with
  | nil => intro _; rfl
  | cons a t ih =>
    intro h
    cases t with
    | nil => rfl
    | cons b rest =>
      simp only [noConsecHyphens, Bool.and_eq_true] at h
      simp only [squeezeHyphens]
      rw [if_neg ?hne, ih h.2]
      case hne =>
        intro hc
        obtain ⟨h1, h2⟩ := bool_and_elim hc
        have := h.1
        rw [Bool.not_eq_true'] at this
        rw [Bool.and_eq_false_iff] at this
        rcases this with h3 | h3
        · rw [h1] at h3; cases h3
        · rw [h2] at h3; cases h3

theorem dropWhile_replaceRuns :
    ∀ (l : List Char), (∀ c ∈ l, c ≠ '-') →
      (replaceRuns isWs l).dropWhile (fun c => c = '-')
        = replaceRuns isWs (l.dropWhile isWs) := by
  intro l
  induction l with
  | nil => intro _; rfl
  | cons a t ih =>
    intro h
    have ha : a ≠ '-' := h a (List.mem_cons_self a _)
    have hht : ∀ c ∈ t, c ≠ '-' := fun c hc => h c (List.mem_cons_of_mem a hc)
    cases t with
    | nil =>
      by_cases hp : isWs a = true
      · rw [show replaceRuns isWs [a] = ['-'] by simp [replaceRuns, hp]]
        rw [dropHyphen_cons_pos, dropWs_cons_pos hp]
        rfl
      · have hp' : isWs a = false := Bool.eq_false_iff.mpr hp
        rw [show replaceRuns isWs [a] = [a] by simp [replaceRuns, hp']]
        rw [dropHyphen_cons_neg ha, dropWs_cons_neg hp']
        simp [replaceRuns, hp']
    | cons b rest =>
      by_cases hab : (isWs a && isWs b) = true
      · obtain ⟨hpa, hpb⟩ := bool_and_elim hab
        rw [replaceRuns_two_pos rest hab, ih hht, dropWs_cons_pos hpa]
      · rw [replaceRuns_two_neg rest hab]
        by_cases hpa : isWs a = true
        · have hpb : isWs b = false := by
            cases hpb : isWs b with
            | false => rfl
            | true => exact absurd (by rw [hpa, hpb]; rfl) hab
          rw [if_pos hpa, dropHyphen_cons_pos]
          have hR := replaceRuns_head (p := isWs) rest b
          cases hRe : replaceRuns isWs (b :: rest) with
          | nil => exact absurd hRe (replaceRuns_ne_nil b rest)
          | cons y ys =>
            rw [hRe] at hR
            simp only [List.head?_cons, Option.some.injEq] at hR
            have hy : y ≠ '-' := by
              rw [hR, if_neg (by rw [hpb]; intro hc; cases hc)]
              exact hht b (List.mem_cons_self b rest)
            rw [dropHyphen_cons_neg hy, dropWs_cons_pos hpa,
              dropWs_cons_neg hpb, ← hRe]
        · have hpa' : isWs a = false := Bool.eq_false_iff.mpr hpa
          rw [if_neg (by rw [hpa']; intro hc; cases hc)]
          rw [dropHyphen_cons_neg ha, dropWs_cons_neg hpa',
            replaceRuns_two_neg rest hab, if_neg (by rw [hpa']; intro hc; cases hc)]

theorem stripTrailingWs_shape (x : Char) (xs : List Char) :
    stripTrailingWs (x :: xs) = []
      ∨ stripTrailingWs (x :: xs) = x :: stripTrailingWs xs := by
  rw [show stripTrailingWs (x :: xs)
      = if (isWs x && (stripTrailingWs xs).isEmpty) = true then []
        else x :: stripTrailingWs xs from rfl]
  by_cases hc : (isWs x && (stripTrailingWs xs).isEmpty) = true
  · rw [if_pos hc]
    exact Or.inl rfl
  · rw [if_neg hc]
    exact Or.inr rfl

theorem stripTrailingWs_cons_of_not_ws {x : Char} (hx : isWs x = false) (xs : List Char) :
    stripTrailingWs (x :: xs) = x :: stripTrailingWs xs := by
  rw [show stripTrailingWs (x :: xs)
      = if (isWs x && (stripTrailingWs xs).isEmpty) = true then []
        else x :: stripTrailingWs xs from rfl]
  rw [if_neg]
  intro hc
  have h1 := (bool_and_elim hc).1
  rw [hx] at h1
  cases h1

theorem stripTrailingWs_cons_eq_nil {x : Char} {xs : List Char}
    (hx : isWs x = true) (hxs : stripTrailingWs xs = []) :
    stripTrailingWs (x :: xs) = [] := by
  rw [show stripTrailingWs (x :: xs)
      = if (isWs x && (stripTrailingWs xs).isEmpty) = true then []
        else x :: stripTrailingWs xs from rfl]
  rw [hx, hxs]
  rfl

theorem stripTrailingWs_cons_of_ne_nil {x : Char} {xs : List Char}
    (hxs : stripTrailingWs xs ≠ []) :
    stripTrailingWs (x :: xs) = x :: stripTrailingWs xs := by
  rw [show stripTrailingWs (x :: xs)
      = if (isWs x && (stripTrailingWs xs).isEmpty) = true then []
        else x :: stripTrailingWs xs from rfl]
  rw [if_neg]
  intro hc
  have h2 := (bool_and_elim hc).2
  rw [List.isEmpty_iff] at h2
  exact hxs h2

theorem stripTrailingWs_head {b : Char} {rest : List Char} {y : Char} {ys : List Char}
    (hs : stripTrailingWs (b :: rest) = y :: ys) : y = b := by
  rcases stripTrailingWs_shape b rest with h1 | h1
  · rw [h1] at hs; cases hs
  · rw [h1] at hs
    exact (List.cons_eq_cons.mp hs).1.symm

theorem stripTrailingHyphens_cons_neg {x : Char} (hx : x ≠ '-') (xs : List Char) :
    stripTrailingHyphens (x :: xs) = x :: stripTrailingHyphens xs := by
  rw [show stripTrailingHyphens (x :: xs)
      = if (x = '-' && (stripTrailingHyphens xs).isEmpty) = true then []
        else x :: stripTrailingHyphens xs from rfl]
  rw [if_neg]
  intro hc
  have h1 := (bool_and_elim hc).1
  simp only [decide_eq_true_eq] at h1
  exact hx h1

theorem stripTrailing_replaceRuns :
    ∀ (m : List Char), (∀ c ∈ m, c ≠ '-') →
      stripTrailingHyphens (replaceRuns isWs m)
        = replaceRuns isWs (stripTrailingWs m) := by
  intro m
  induction m with
  | nil => intro _; rfl
  | cons a t ih =>
    intro h
    have ha : a ≠ '-' := h a (List.mem_cons_self a _)
    have hht : ∀ c ∈ t, c ≠ '-' := fun c hc => h c (List.mem_cons_of_mem a hc)
    cases t with
    | nil =>
      by_cases hp : isWs a = true
      · rw [show replaceRuns isWs [a] = ['-'] by simp [replaceRuns, hp]]
        rw [stripTrailingWs_cons_eq_nil hp (show stripTrailingWs [] = [] from rfl)]
        rfl
      · have hp' : isWs a = false := Bool.eq_false_iff.mpr hp
        rw [show replaceRuns isWs [a] = [a] by simp [replaceRuns, hp']]
        rw [stripTrailingHyphens_cons_neg ha, stripTrailingWs_cons_of_not_ws hp']
        simp [replaceRuns, hp', stripTrailingHyphens, stripTrailingWs]
    | cons b rest =>
      have hihr := ih hht
      by_cases hab : (isWs a && isWs b) = true
      · obtain ⟨hpa, hpb⟩ := bool_and_elim hab
        rw [replaceRuns_two_pos rest hab, hihr]
        cases hs : stripTrailingWs (b :: rest) with
        | nil =>
          rw [stripTrailingWs_cons_eq_nil hpa hs]
        | cons y ys =>
          have hy := stripTrailingWs_head hs
          rw [hy] at hs ⊢
          rw [stripTrailingWs_cons_of_ne_nil (by rw [hs]; intro hc; cases hc)]
          rw [hs, replaceRuns_two_pos ys (by rw [hpa, hpb]; rfl)]
      · rw [replaceRuns_two_neg rest hab]
        by_cases hpa : isWs a = true
        · have hpb : isWs b = false := by
            cases hpb : isWs b with
            | false => rfl
            | true => exact absurd (by rw [hpa, hpb]; rfl) hab
          rw [if_pos hpa]
          have hs : stripTrailingWs (b :: rest) = b :: stripTrailingWs rest :=
            stripTrailingWs_cons_of_not_ws hpb rest
          have hne := replaceRuns_ne_nil (p := isWs) b (stripTrailingWs rest)
          rw [show stripTrailingHyphens ('-' :: replaceRuns isWs (b :: rest))
              = if (('-' : Char) = '-'
                    && (stripTrailingHyphens (replaceRuns isWs (b :: rest))).isEmpty) = true
                then [] else '-' :: stripTrailingHyphens (replaceRuns isWs (b :: rest))
              from rfl]
          rw [hihr, hs]
          rw [if_neg ?hcond]
          case hcond =>
            intro hc
            have h2 := (bool_and_elim hc).2
            rw [List.isEmpty_iff] at h2
            exact hne h2
          rw [stripTrailingWs_cons_of_ne_nil (by rw [hs]; intro hc; cases hc)]
          rw [hs, replaceRuns_two_neg (stripTrailingWs rest)
            (by rw [hpa, hpb]; intro hc; cases hc), if_pos hpa]
        · have hpa' : isWs a = false := Bool.eq_false_iff.mpr hpa
          rw [if_neg (by rw [hpa']; intro hc; cases hc)]
          rw [stripTrailingHyphens_cons_neg ha, hihr,
            stripTrailingWs_cons_of_not_ws hpa']
          cases hs : stripTrailingWs (b :: rest) with
          | nil =>
            simp [replaceRuns, hpa']
          | cons y ys =>
            rw [replaceRuns_two_neg ys (by rw [hpa']; simp),
              if_neg (by rw [hpa']; intro hc; cases hc)]
theorem pipeline_agrees (l : List Char) (h1 : ∀ c ∈ l, c ≠ '-')
    (h2 : ∀ c ∈ l, isWs c = false → isSlugChar c = true) :
    stripHyphens (squeezeHyphens ((replaceRuns isWs l).filter isSlugChar))
      = replaceRuns isWs (stripWs l) := by
  have hfil : (replaceRuns isWs l).filter isSlugChar = replaceRuns isWs l := by
    rw [List.filter_eq_self]
    intro c hc
    rcases replaceRuns_mem hc with rfl | ⟨hcl, hcp⟩
    · decide
    · exact h2 c hcl hcp
  rw [hfil, squeeze_noop (replaceRuns_noConsec h1)]
  unfold stripHyphens stripWs
  rw [dropWhile_replaceRuns l h1]
  apply stripTrailing_replaceRuns
  intro c hc
  apply h1
  rw [← List.takeWhile_append_dropWhile isWs l]
  exact List.mem_append_right _ hc

/-! ### Small helper lemmas on filtering a Nodup list at one element -/

theorem filter_eq_single {α : Type} [DecidableEq α] {l : List α} {a : α}
    (hn : l.Nodup) (hm : a ∈ l) : l.filter (fun x => x = a) = [a] := by
  induction l with
  | nil => cases hm
  | cons b t ih =>
    rw [List.nodup_cons] at hn
    rcases List.mem_cons.mp hm with rfl | hmt
    · rw [List.filter_cons_of_pos (by simp)]
      have hnil : t.filter (fun x => x = a) = [] := by
        rw [List.filter_eq_nil_iff]
        intro x hx
        simp only [decide_eq_true_eq]
        rintro rfl
        exact hn.1 hx
      rw [hnil]
    · have hb : ¬(b = a) := by
        rintro rfl
        exact hn.1 hmt
      rw [List.filter_cons_of_neg (by simpa using hb)]
      exact ih hn.2 hmt

theorem filter_ne_length {α : Type} [DecidableEq α] {l : List α} {a : α}
    (hn : l.Nodup) (hm : a ∈ l) : (l.filter (fun x => x ≠ a)).length = l.length - 1 := by
  induction l with
  | nil => cases hm
  | cons b t ih =>
    rw [List.nodup_cons] at hn
    rcases List.mem_cons.mp hm with rfl | hmt
    · rw [List.filter_cons_of_neg (by simp)]
      have hself : t.filter (fun x => x ≠ a) = t := by
        rw [List.filter_eq_self]
        intro x hx
        simp only [ne_eq, decide_not, Bool.not_eq_true', decide_eq_false_iff_not]
        rintro rfl
        exact hn.1 hx
      rw [hself]
      simp
    · have hb : b ≠ a := by
        rintro rfl
        exact hn.1 hmt
      rw [List.filter_cons_of_pos (by simpa using hb)]
      simp only [List.length_cons, ih hn.2 hmt]
      have hpos : 0 < t.length := List.length_pos_of_mem hmt
      omega

/-! ### The claims -/

/-- C1 (counterexample): the claim quantifies over every normalizer
implementation in the repository, but `text_to_audio_filename` (the
normalizer of `add-audio-to-flashcards.py`) violates it: on the input `";"`
it returns `";"`, which is neither empty nor a match of
`^[a-z0-9]+(-[a-z0-9]+)*$` (the function's punctuation class omits the
semicolon and it has no final character filter). -/
theorem text_to_audio_filename_not_slug :
    text_to_audio_filename ";" = ";"
      ∧ text_to_audio_filename ";" ≠ ""
      ∧ matchesSlugRegex (text_to_audio_filename ";") = false := by decide

/-- C2: the loop of `main` has no empty-slug check.  The candidate `"¿"` is
accepted by `is_spanish_text` (so it is reachable as an extracted candidate),
its slug is empty, and yet the workflow issues a synthesis call for it and
records the manifest entry `"¿" ↦ ".mp3"` instead of skipping it. -/
theorem empty_slug_not_skipped :
    is_spanish_text "¿" = true
      ∧ normalize_filename "¿" = ""
      ∧ (runWorkflow (fun _ => true) [] ["¿"]).manifest = [("¿", ".mp3")]
      ∧ (runWorkflow (fun _ => true) [] ["¿"]).synthCalls = 1 := by decide

/-- C3 (counterexample): with a candidate whose synthesis fails, the first run
writes no file (the asset directory is unchanged), yet the second run issues a
synthesis call again (the failure is retried), refuting "zero synthesis calls
on the second run" as an unconditional statement. -/
theorem second_run_resynthesizes_failures :
    (runWorkflow (fun _ => false) [] ["hola"]).files = []
      ∧ ¬ (runWorkflow (fun _ => false)
            ((runWorkflow (fun _ => false) [] ["hola"]).files) ["hola"]).synthCalls = 0 := by
  decide

/-- C3 (amended): if the first run records no synthesis failure, then a second
run over the same candidate list, starting from the asset directory the first
run left behind, issues zero synthesis calls and produces the identical
in-memory manifest. -/
theorem incremental_second_run (synth : String → Bool) (files0 texts : List String)
    (h : (runWorkflow synth files0 texts).failures = []) :
    (runWorkflow synth (runWorkflow synth files0 texts).files texts).synthCalls = 0
      ∧ (runWorkflow synth (runWorkflow synth files0 texts).files texts).manifest
          = (runWorkflow synth files0 texts).manifest := by
  unfold runWorkflow at h ⊢
  obtain ⟨hman, hfiles⟩ := runFrom_noFailures synth texts
    { files := files0, manifest := [], synthCalls := 0, failures := [] } h
  have hrun2 := runFrom_all_present synth texts
    { files := (runFrom synth
        { files := files0, manifest := [], synthCalls := 0, failures := [] } texts).files,
      manifest := [], synthCalls := 0, failures := [] } hfiles
  rw [hrun2]
  refine ⟨rfl, ?_⟩
  rw [hman]

/-- C3 (witness): a concrete instance of `incremental_second_run` with one
candidate and an always-succeeding synthesizer. -/
theorem incremental_second_run_witness :
    (runWorkflow (fun _ => true) [] ["hola"]).failures = []
      ∧ ((runWorkflow (fun _ => true)
            ((runWorkflow (fun _ => true) [] ["hola"]).files) ["hola"]).synthCalls = 0
        ∧ (runWorkflow (fun _ => true)
            ((runWorkflow (fun _ => true) [] ["hola"]).files) ["hola"]).manifest
          = (runWorkflow (fun _ => true) [] ["hola"]).manifest) :=
  ⟨by decide, incremental_second_run (fun _ => true) [] ["hola"] (by decide)⟩

/-- C4: if among candidates with pairwise-distinct non-colliding filenames
and no pre-existing assets the synthesizer fails on exactly one candidate
`bad`, the run completes (the embedding is a total function: every exception
of `generate_audio_file` is caught and reported as `False`), the manifest
holds exactly the entries of the other candidates, its length is `N - 1`,
and the failure log is exactly `[bad]`. -/
theorem synthesis_failure_isolation (texts : List String) (synth : String → Bool) (bad : String)
    (hmem : bad ∈ texts)
    (hnd : (texts.map audioFilename).Nodup)
    (hbad : synth bad = false)
    (hgood : ∀ t ∈ texts, t ≠ bad → synth t = true) :
    (runWorkflow synth [] texts).manifest
        = (texts.filter (fun t => t ≠ bad)).map (fun t => (t, audioFilename t))
      ∧ (runWorkflow synth [] texts).manifest.length = texts.length - 1
      ∧ (runWorkflow synth [] texts).failures = [bad] := by
  unfold runWorkflow
  have hrun := runFrom_fresh synth texts
    { files := [], manifest := [], synthCalls := 0, failures := [] }
    (fun t _ => by simp) hnd
  rw [hrun]
  have hfs : texts.filter (fun t => synth t) = texts.filter (fun t => t ≠ bad) := by
    apply List.filter_congr
    intro x hx
    by_cases hxb : x = bad
    · subst hxb
      simp [hbad]
    · simp [hgood x hx hxb, hxb]
  have hff : texts.filter (fun t => !synth t) = texts.filter (fun t => t = bad) := by
    apply List.filter_congr
    intro x hx
    by_cases hxb : x = bad
    · subst hxb
      simp [hbad]
    · simp [hgood x hx hxb, hxb]
  have htnd : texts.Nodup := List.Nodup.of_map audioFilename hnd
  refine ⟨?_, ?_, ?_⟩
  · show (texts.filter (fun t => synth t)).map (fun t => (t, audioFilename t))
        = (texts.filter (fun t => t ≠ bad)).map (fun t => (t, audioFilename t))
    rw [hfs]
  · show ((texts.filter (fun t => synth t)).map (fun t => (t, audioFilename t))).length
        = texts.length - 1
    rw [hfs, List.length_map]
    exact filter_ne_length htnd hmem
  · show texts.filter (fun t => !synth t) = [bad]
    rw [hff]
    exact filter_eq_single htnd hmem

/-- C4 (witness): two candidates, the synthesizer fails exactly on
`"adios"`; the manifest holds only the `"hola"` entry and the failure log is
`["adios"]`. -/
theorem synthesis_failure_isolation_witness :
    (runWorkflow (fun t => !(t == "adios")) [] ["adios", "hola"]).manifest
        = ((["adios", "hola"] : List String).filter (fun t => t ≠ "adios")).map
            (fun t => (t, audioFilename t))
      ∧ (runWorkflow (fun t => !(t == "adios")) [] ["adios", "hola"]).manifest.length
          = (["adios", "hola"] : List String).length - 1
      ∧ (runWorkflow (fun t => !(t == "adios")) [] ["adios", "hola"]).failures = ["adios"] :=
  synthesis_failure_isolation ["adios", "hola"] (fun t => !(t == "adios")) "adios"
    (by decide) (by decide) (by decide) (by decide)

/-- C5 (counterexample): in the documented scenario the candidate `"Hola"` is
extracted and the slug is `hola`, but the manifest value written by the code
is `"hola.mp3"` — the bare filename relative to the language directory — not
the language-prefixed `"spanish/hola.mp3"` the claim states. -/
theorem hola_manifest_value_not_prefixed :
    extractFlashcard "Hola" "" "es" "" = ["Hola"]
      ∧ (runWorkflow (fun _ => true) [] ["Hola"]).manifest = [("Hola", "hola.mp3")]
      ∧ ("hola.mp3" : String) ≠ "spanish/hola.mp3" := by decide

/-- C5 (amended): the scenario as the code runs it: candidate `"Hola"` is
extracted, its slug is `hola`, the asset filename is `hola.mp3` (stored under
the spanish audio directory), the file is created, and the manifest maps
`"Hola"` to `"hola.mp3"`. -/
theorem hola_scenario :
    extractFlashcard "Hola" "" "es" "" = ["Hola"]
      ∧ normalize_filename "Hola" = "hola"
      ∧ audioFilename "Hola" = "hola.mp3"
      ∧ (runWorkflow (fun _ => true) [] ["Hola"]).manifest = [("Hola", "hola.mp3")]
      ∧ (runWorkflow (fun _ => true) [] ["Hola"]).files = ["hola.mp3"] := by decide

/-- C6 (counterexample): an entry present in the pre-existing manifest but not
produced by the current run is NOT preserved: the manifest file is opened in
write mode and only the current run's entries are dumped. -/
theorem manifest_merge_counterexample :
    List.lookup "adios" [("adios", "adios.mp3")] = some "adios.mp3"
      ∧ List.lookup "adios"
          (writtenManifest [("adios", "adios.mp3")]
            (runWorkflow (fun _ => true) [] ["hola"])) = none := by
  have hm : (runWorkflow (fun _ => true) [] ["hola"]).manifest = [("hola", "hola.mp3")] := by
    decide
  refine ⟨by decide, ?_⟩
  unfold writtenManifest
  rw [hm, List.mergeSort_singleton]
  decide

/-- C6 (amended): the written manifest consists exactly of the current run's
entries sorted by key; the pre-existing manifest contents are discarded
(`writtenManifest` does not depend on them at all). -/
theorem manifest_write_discards_preexisting (pre : List (String × String)) (st : WorkflowState) :
    writtenManifest pre st = writtenManifest [] st
      ∧ (writtenManifest pre st).Perm st.manifest
      ∧ (writtenManifest pre st).Pairwise (fun a b => a.1 ≤ b.1) := by
  refine ⟨rfl, List.mergeSort_perm st.manifest _, ?_⟩
  apply List.Pairwise.imp ?_ (List.sorted_mergeSort ?_ ?_ st.manifest)
  · intro a b hab
    simpa using hab
  · intro a b c hab hbc
    simp only [decide_eq_true_eq] at hab hbc ⊢
    exact le_trans hab hbc
  · intro a b
    simp only [Bool.or_eq_true, decide_eq_true_eq]
    exact le_total a.1 b.1

/-- C7 (counterexample): a tagged flashcard front with `frontLanguage = "es"`
and non-empty content is NOT extracted when the heuristic classifier rejects
it: the code requires `front_lang == 'es' AND is_spanish_text(front)`. -/
theorem tagged_field_still_classified :
    ("xyz" : String) ≠ ""
      ∧ is_spanish_text "xyz" = false
      ∧ extractFlashcard "xyz" "" "es" "" = [] := by decide

/-- C7 (amended): for tagged flashcard fields, eligibility is tag-equality
AND the heuristic classifier: a front (resp. back) text is extracted iff its
language tag is `es` and `is_spanish_text` accepts it. -/
theorem tagged_eligibility_iff (front back frontLang backLang : String)
    (hne : front ≠ back) :
    (front ∈ extractFlashcard front back frontLang backLang
        ↔ frontLang = "es" ∧ is_spanish_text front = true)
      ∧ (back ∈ extractFlashcard front back frontLang backLang
        ↔ backLang = "es" ∧ is_spanish_text back = true) := by
  have hne' : back ≠ front := Ne.symm hne
  unfold extractFlashcard
  cases h1 : (decide (frontLang = "es") && is_spanish_text front) <;>
    cases h2 : (decide (backLang = "es") && is_spanish_text back) <;>
      simp_all

/-- C7 (witness): with front `"hola"` tagged `es` and back `"adios"` tagged
`en`, the characterization instantiates. -/
theorem tagged_eligibility_iff_witness :
    ("hola" : String) ≠ "adios"
      ∧ ((("hola" : String) ∈ extractFlashcard "hola" "adios" "es" "en"
            ↔ ("es" : String) = "es" ∧ is_spanish_text "hola" = true)
        ∧ (("adios" : String) ∈ extractFlashcard "hola" "adios" "es" "en"
            ↔ ("en" : String) = "es" ∧ is_spanish_text "adios" = true)) :=
  ⟨by decide, tagged_eligibility_iff "hola" "adios" "es" "en" (by decide)⟩

/-- C8: both record field updaters are idempotent: applying
`add_audio_to_flashcard` (resp. the verb-task update) twice yields the same
record as applying it once. -/
theorem updater_idempotent :
    (∀ task : Task,
        add_audio_to_flashcard (add_audio_to_flashcard task) = add_audio_to_flashcard task)
      ∧ ∀ (ca : String) (t : VerbTask),
          updateVerbTask ca (updateVerbTask ca t) = updateVerbTask ca t := by
  constructor
  · intro task
    obtain ⟨ty, ⟨f, b, fl, bl, fa, ba, cr⟩, tr⟩ := task
    by_cases hty : ty = "flashcard"
    · subst hty
      by_cases hf : fl = "es" ∧ f ≠ "" <;> by_cases hb : bl = "es" ∧ b ≠ "" <;>
        simp [add_audio_to_flashcard, hf, hb]
    · simp [add_audio_to_flashcard, hty]
  · intro ca t
    rfl

/-- C9 (counterexample): the two normalizers are not extensionally equal — on
`"ü"`, `normalize_filename` maps `ü → u` but `text_to_audio_filename`'s accent
table has no `ü` entry and it lacks the final character filter, so it returns
`"ü"` unchanged. -/
theorem normalizers_disagree :
    normalize_filename "ü" = "u"
      ∧ text_to_audio_filename "ü" = "ü"
      ∧ normalize_filename "ü" ≠ text_to_audio_filename "ü" := by decide

/-- `text_to_audio_filename` unfolded to its list pipeline. -/
theorem text_to_audio_filename_eq (s : String) :
    text_to_audio_filename s =
      ⟨replaceRuns isWs (stripWs
        (((s.data.filter (fun c => !(c ∈ punctuation2))).map
          (applyTable accentTable2)).map pyLower))⟩ := rfl

/-- On strings of lowercase ASCII letters, digits and spaces, every step of
the two normalization pipelines either acts as the identity or coincides, so
the two normalizers agree. -/
theorem normalizers_agree_on_plain (s : String)
    (h : ∀ c ∈ s.data, c ∈ plainChars) :
    normalize_filename s = text_to_audio_filename s := by
  have hLower : ∀ c ∈ plainChars, pyLower c = c := by decide
  have hP1 : ∀ c ∈ plainChars, (!(c ∈ punctuation1)) = true := by decide
  have hP2 : ∀ c ∈ plainChars, (!(c ∈ punctuation2)) = true := by decide
  have hA1 : ∀ c ∈ plainChars, applyTable accentTable1 c = c := by decide
  have hA2 : ∀ c ∈ plainChars, applyTable accentTable2 c = c := by decide
  have hWS : ∀ c ∈ plainChars, isWsSlash c = isWs c := by decide
  have hHy : ∀ c ∈ plainChars, c ≠ '-' := by decide
  have hSl : ∀ c ∈ plainChars, isWs c = false → isSlugChar c = true := by decide
  rw [normalize_filename_eq, text_to_audio_filename_eq]
  have e1 : s.data.map pyLower = s.data := map_id_on (fun c hc => hLower c (h c hc))
  rw [e1]
  have e2 : s.data.filter (fun c => !(c ∈ punctuation1)) = s.data :=
    List.filter_eq_self.mpr (fun c hc => hP1 c (h c hc))
  rw [e2]
  have e3 : s.data.map (applyTable accentTable1) = s.data :=
    map_id_on (fun c hc => hA1 c (h c hc))
  rw [e3]
  have e4 : s.data.filter (fun c => !(c ∈ punctuation2)) = s.data :=
    List.filter_eq_self.mpr (fun c hc => hP2 c (h c hc))
  rw [e4]
  have e5 : s.data.map (applyTable accentTable2) = s.data :=
    map_id_on (fun c hc => hA2 c (h c hc))
  rw [e5, e1]
  have e6 : replaceRuns isWsSlash s.data = replaceRuns isWs s.data :=
    replaceRuns_congr (fun c hc => hWS c (h c hc))
  rw [e6]
  exact congrArg String.mk
    (pipeline_agrees s.data (fun c hc => hHy c (h c hc)) (fun c hc => hSl c (h c hc)))

/-- C9 (amended): the normalization logic is duplicated, not shared: each
script carries its own routine.  The routines agree on the documented example
inputs (producing the documented slugs) and on every string of lowercase
ASCII letters, digits and spaces, but not on all strings. -/
theorem normalizers_partial_agreement :
    (normalize_filename "Hola" = text_to_audio_filename "Hola"
      ∧ normalize_filename "¿Cómo estás?" = text_to_audio_filename "¿Cómo estás?"
      ∧ normalize_filename "Buenos días" = text_to_audio_filename "Buenos días"
      ∧ normalize_filename "Hola" = "hola"
      ∧ normalize_filename "¿Cómo estás?" = "como-estas"
      ∧ normalize_filename "Buenos días" = "buenos-dias")
    ∧ ∀ s : String, (∀ c ∈ s.data, c ∈ plainChars) →
        normalize_filename s = text_to_audio_filename s :=
  ⟨by decide, fun s h => normalizers_agree_on_plain s h⟩

/-- C9 (witness): the class agreement instantiated at `"hola mundo 123"`. -/
theorem normalizers_partial_agreement_witness :
    (∀ c ∈ ("hola mundo 123" : String).data, c ∈ plainChars)
      ∧ normalize_filename "hola mundo 123" = text_to_audio_filename "hola mundo 123" :=
  ⟨by decide, normalizers_partial_agreement.2 "hola mundo 123" (by decide)⟩

/-- C10: the updater's frame: non-flashcard tasks are returned unchanged, and
for flashcards only `frontAudio`/`backAudio` may change — `type`, the other
content fields, and all remaining task/content entries keep their values. -/
theorem add_audio_frame (task : Task) :
    (task.type ≠ "flashcard" → add_audio_to_flashcard task = task)
      ∧ (add_audio_to_flashcard task).type = task.type
      ∧ (add_audio_to_flashcard task).taskRest = task.taskRest
      ∧ (add_audio_to_flashcard task).content.front = task.content.front
      ∧ (add_audio_to_flashcard task).content.back = task.content.back
      ∧ (add_audio_to_flashcard task).content.frontLanguage = task.content.frontLanguage
      ∧ (add_audio_to_flashcard task).content.backLanguage = task.content.backLanguage
      ∧ (add_audio_to_flashcard task).content.contentRest = task.content.contentRest := by
  obtain ⟨ty, ⟨f, b, fl, bl, fa, ba, cr⟩, tr⟩ := task
  refine ⟨fun h => by simp [add_audio_to_flashcard, h], ?_⟩
  by_cases hty : ty = "flashcard"
  · subst hty
    by_cases hf : fl = "es" ∧ f ≠ "" <;> by_cases hb : bl = "es" ∧ b ≠ "" <;>
      simp [add_audio_to_flashcard, hf, hb]
  · simp [add_audio_to_flashcard, hty]

/-- A sample non-flashcard task used to instantiate the frame theorem. -/
def sampleTask : Task :=
  { type := "multiple-choice",
    content := { front := "", back := "", frontLanguage := "", backLanguage := "",
                 frontAudio := none, backAudio := none, contentRest := [] },
    taskRest := [("id", "t1")] }

/-- C10 (witness): the frame theorem instantiated at a concrete
non-flashcard task, discharging the implication's hypothesis. -/
theorem add_audio_frame_witness : add_audio_to_flashcard sampleTask = sampleTask :=
  (add_audio_frame sampleTask).1 (by decide)

end LearningPlatform
